import Mathlib

/-!
Verification development for the idh warping/semblance driver scripts.

The repository consists of two Jython driver scripts:
  - bench/src/warp/waveletwarpingab.py  (dual inverse-wavelet estimation demo)
  - bench/src/lss/sos2.py               (structure-tensor smoothing/semblance demo)

Float arithmetic is embedded as real arithmetic.  1-D float arrays become
List ℝ.  Functions of the scripts are embedded under namespaces Warpab and
Sos2.  The numerical classes called by the scripts (WaveletWarpingAB,
SincInterpolator) are part of the repository but their sources are not
available here; those operations are modelled from the specification and
are marked as such in their doc comments.
-/

namespace Idh

/-- Zero-padded signal access at an integer index, as used by convolution
with boundary zero-padding: samples outside the array read as 0. -/
def getZ (x : List ℝ) (j : ℤ) : ℝ :=
  if 0 ≤ j then x.getD j.toNat 0 else 0

/-- Sum of squares of the samples of a signal. -/
def sumSq (x : List ℝ) : ℝ :=
  (x.map (fun v => v ^ 2)).sum

/-- Euclidean norm of a coefficient sequence. -/
noncomputable def l2norm (x : List ℝ) : ℝ :=
  Real.sqrt (sumSq x)

/-- Normalized sinc kernel: the ideal band-limited interpolation kernel.
Modelled from the spec (section 4.1): the sinc-kernel interpolator evaluates a
sampled signal at fractional positions; its truncation-error and passband
parameters control only the approximation error, which this real-valued model
takes to zero.  The kernel is exact at integer lags (value 1 at lag 0 and 0 at
all other integer lags), which any windowed-sinc interpolation kernel also is. -/
noncomputable def sinc (t : ℝ) : ℝ :=
  if t = 0 then 1 else Real.sin (Real.pi * t) / (Real.pi * t)

/-- Band-limited evaluation of a sampled signal x at the fractional position t:
the sinc-weighted accumulation of the contributions of the samples of x.
Modelled from the spec (section 4.1). -/
noncomputable def sincInterp (x : List ℝ) (t : ℝ) : ℝ :=
  ∑ j ∈ Finset.range x.length, x.getD j 0 * sinc (t - j)

/-- Resampling operator applying a time-warp function u to a signal x.
Modelled from the spec (section 4.1): produces a signal of the same length as
the warp function u whose i-th sample is x evaluated (band-limited) at the
fractional position u[i].  This models WaveletWarpingAB.warp, whose source is
not part of the visible material. -/
noncomputable def resample (u x : List ℝ) : List ℝ :=
  u.map (fun ui => sincInterp x ui)

/-- A finite-length filter: coefficient sequence plus integer time-origin
offset, per the spec's data model. -/
structure Filter where
  coeff : List ℝ
  offset : ℤ

/-- Convolution operator.  Modelled from the spec (section 4.2):
output[i] = Σ_k coeff[k] · x[i − k + offset], zero-padded at boundaries,
and the output has the same length as x.  This models
WaveletWarpingAB.convolve, whose source is not part of the visible material. -/
noncomputable def convolve (h : Filter) (x : List ℝ) : List ℝ :=
  (List.range x.length).map fun i : ℕ =>
    ∑ k ∈ Finset.range h.coeff.length, h.coeff.getD k 0 * getZ x ((i : ℤ) - (k : ℤ) + h.offset)

/-- Pointwise linear combination c1·x + c2·y of two signals. -/
def lin (c1 : ℝ) (x : List ℝ) (c2 : ℝ) (y : List ℝ) : List ℝ :=
  List.zipWith (fun s t => c1 * s + c2 * t) x y

/-- The estimation objective of the dual-filter estimator.  Modelled from the
spec (section 4.4): J(a,b) = Σ_t [ (a * f)(t) − Warp(b * g)(t) ]² over the
time window [tmin, tmax], where a * f is convolution by the filter with
coefficients a and offset ka, and Warp resamples along the warp function u. -/
noncomputable def Jfun (ka kb : ℤ) (u f g : List ℝ) (tmin tmax : ℕ) (a b : List ℝ) : ℝ :=
  ∑ t ∈ Finset.Icc tmin tmax,
    ((convolve ⟨a, ka⟩ f).getD t 0 - (resample u (convolve ⟨b, kb⟩ g)).getD t 0) ^ 2

/-- The stabilized objective: the stabilization factor sfac is added to the
diagonal of the normal-equations matrix, which on quadratic forms amounts to
adding sfac times the squared norm of the stacked coefficients.  Modelled from
the spec (section 4.4). -/
noncomputable def Jstab (ka kb : ℤ) (u f g : List ℝ) (tmin tmax : ℕ) (sfac : ℝ)
    (a b : List ℝ) : ℝ :=
  Jfun ka kb u f g tmin tmax a b + sfac * (sumSq a + sumSq b)

/-- Contract of WaveletWarpingAB.getInverseAB.  Modelled from the spec
(section 4.4), since the source of the class WaveletWarpingAB is not part of
the visible material: the estimator returns a pair of inverse filters (a, b)
of lengths na and nb that minimizes the (stabilized) objective J over all
coefficient pairs subject to the unit-norm constraint on the concatenation,
the ℓ₂ norm of [a; b] being 1. -/
def IsInverseAB (na : ℕ) (ka : ℤ) (nb : ℕ) (kb : ℤ) (u f g : List ℝ)
    (tmin tmax : ℕ) (sfac : ℝ) (a b : List ℝ) : Prop :=
  a.length = na ∧ b.length = nb ∧ l2norm (a ++ b) = 1 ∧
    ∀ a' b' : List ℝ, a'.length = na → b'.length = nb → l2norm (a' ++ b') = 1 →
      Jstab ka kb u f g tmin tmax sfac a b ≤ Jstab ka kb u f g tmin tmax sfac a' b'

/-- The identity warp function of length n: u[i] = i. -/
noncomputable def idRamp (n : ℕ) : List ℝ :=
  (List.range n).map (fun i : ℕ => (i : ℝ))

/-- The length-5 test signal [0, 1, 0, -1, 0] of the spec's concrete scenario. -/
noncomputable def fScn : List ℝ := [0, 1, 0, -1, 0]

/-- A sinc interpolation kernel as constructed by
SincInterpolator.fromErrorAndFrequency: it carries the maximum interpolation
error and the passband edge (as a fraction of the Nyquist frequency) it was
designed with. -/
structure SincInterp where
  emax : ℝ
  fmax : ℝ

/-- Constructor of a sinc interpolation kernel from a maximum interpolation
error and a passband edge, mirroring
SincInterpolator.fromErrorAndFrequency(emax, fmax). -/
def SincInterpolator_fromErrorAndFrequency (emax fmax : ℝ) : SincInterp :=
  ⟨emax, fmax⟩

/-- The interpolation kernel function of a sinc interpolator.  Modelled from
the spec (section 4.1): the design parameters control only the truncation
error of the windowed sinc, which this real-valued model takes to zero, so the
kernel is the ideal normalized sinc. -/
noncomputable def SincInterp.kernel (_si : SincInterp) (t : ℝ) : ℝ :=
  sinc t

/-- One call si.accumulate(x, y, nt, 1.0, 0.0, ys): adds to every sample i of
ys the kernel-weighted contribution y · kernel(i − x) of an impulse of
amplitude y at the fractional position x. -/
noncomputable def SincInterp.accumulate (si : SincInterp) (x y : ℝ) (ys : List ℝ) : List ℝ :=
  ys.mapIdx (fun i v => v + y * si.kernel ((i : ℝ) - x))

/-- The accumulation loop shared by the synthetic impulse generators: starting
from two all-zero arrays of length nt, for each impulse (tp, tq, r) in order
accumulate amplitude r at position tp into p and at position tq into q. -/
noncomputable def accumPQ (si : SincInterp) (nt : ℕ) (imps : List (ℝ × ℝ × ℝ)) :
    List ℝ × List ℝ :=
  imps.foldl
    (fun pq tqr => (si.accumulate tqr.1 tqr.2.2 pq.1, si.accumulate tqr.2.1 tqr.2.2 pq.2))
    (List.replicate nt 0, List.replicate nt 0)

namespace Warpab

/-! Embedding of bench/src/warp/waveletwarpingab.py. -/

/-- The linear congruential multiplier 0x5DEECE66D of java.util.Random. -/
def javaMul : ℕ := 25214903917

/-- State of java.util.Random after construction with a given seed:
the seed is scrambled by XOR with the multiplier, modulo 2^48.  Models the
Random(seed) constructor used by logupq. -/
def javaRandomInit (seed : ℕ) : ℕ :=
  (seed ^^^ javaMul) % 2 ^ 48

/-- One step of the 48-bit linear congruential generator of java.util.Random. -/
def javaStep (s : ℕ) : ℕ :=
  (s * javaMul + 11) % 2 ^ 48

/-- One call of Random.nextFloat(): advances the state and returns the top 24
bits of the new state divided by 2^24, as an exact rational. -/
def javaNextFloat (s : ℕ) : ℕ × ℚ :=
  (javaStep s, ((javaStep s / 2 ^ 24 : ℕ) : ℚ) / 2 ^ 24)

/-- randfloat(rand, n): draws n floats in order from the generator, returning
the advanced state and the drawn values. -/
def randfloat (s : ℕ) : ℕ → ℕ × List ℚ
  | 0 => (s, [])
  | n + 1 =>
    let d := javaNextFloat s
    let rest := randfloat d.1 n
    (rest.1, d.2 :: rest.2)

/-- The sinc interpolator constructed by logupq:
SincInterpolator.fromErrorAndFrequency(0.01, 0.45). -/
noncomputable def logupq_si : SincInterp :=
  SincInterpolator_fromErrorAndFrequency 0.01 0.45

/-- The sinc interpolator constructed by logupqOld:
SincInterpolator.fromErrorAndFrequency(0.01, 0.45). -/
noncomputable def logupqOld_si : SincInterp :=
  SincInterpolator_fromErrorAndFrequency 0.01 0.45

/-- The sinc interpolator constructed by expupq:
SincInterpolator.fromErrorAndFrequency(0.01, 0.45). -/
noncomputable def expupq_si : SincInterp :=
  SincInterpolator_fromErrorAndFrequency 0.01 0.45

/-- The sinc interpolator constructed by nmoupq:
SincInterpolator.fromErrorAndFrequency(0.01, 0.45). -/
noncomputable def nmoupq_si : SincInterp :=
  SincInterpolator_fromErrorAndFrequency 0.01 0.45

/-- The sinc interpolator constructed by makeImpulses (of the warp script):
SincInterpolator.fromErrorAndFrequency(0.01, 0.45). -/
noncomputable def makeImpulses_si : SincInterp :=
  SincInterpolator_fromErrorAndFrequency 0.01 0.45

/-- The warp curve u built by logupq: if r0 == r1 it is rampfloat(0.0, r0, nt),
u[i] = 0 + r0·i; otherwise, with a = umax/log(r0/r1) and b = r0/a, it is
u[i] = a·log(1 + b·i), where umax = nt − 1. -/
noncomputable def logupq_u (r0 r1 : ℝ) (nt : ℕ) : List ℝ :=
  let umax : ℝ := (nt : ℝ) - 1
  if r0 = r1 then
    (List.range nt).map (fun i : ℕ => 0 + r0 * (i : ℝ))
  else
    (List.range nt).map (fun i : ℕ =>
      (umax / Real.log (r0 / r1)) * Real.log (1 + (r0 / (umax / Real.log (r0 / r1))) * (i : ℝ)))

/-- The inverse map t(u) defined inside logupq: u/r0 in the r0 == r1 branch,
(exp(u/a) − 1)/b otherwise. -/
noncomputable def logupq_t (r0 r1 : ℝ) (nt : ℕ) (uu : ℝ) : ℝ :=
  let umax : ℝ := (nt : ℝ) - 1
  if r0 = r1 then uu / r0
  else (Real.exp (uu / (umax / Real.log (r0 / r1))) - 1) / (r0 / (umax / Real.log (r0 / r1)))

/-- Embedding of logupq(r0, r1, nt, ni).  The ambient parameter models the
entropy (system time) that an unseeded java.util.Random constructor would
draw; the script constructs Random(3) with the fixed seed 3, so the parameter
is ignored.  us are ni uniform draws scaled by umax, rs are the next ni draws
mapped through v ↦ ((v − 0.5)·2)^5, and p, q accumulate the impulses at
positions t(ui) and ui respectively, via the sinc kernel. -/
noncomputable def logupq (ambient : ℕ) (r0 r1 : ℝ) (nt ni : ℕ) :
    List ℝ × List ℝ × List ℝ :=
  let rand := javaRandomInit 3
  let umax : ℝ := (nt : ℝ) - 1
  let usDraw := randfloat rand ni
  let us : List ℝ := usDraw.2.map (fun v => umax * (v : ℝ))
  let rs : List ℝ := ((randfloat usDraw.1 ni).2).map (fun v => (((v : ℝ) - 0.5) * 2) ^ (5 : ℕ))
  let u := logupq_u r0 r1 nt
  let imps := List.zip (us.map (logupq_t r0 r1 nt)) (List.zip us rs)
  let pq := accumPQ logupq_si nt imps
  (u, pq.1, pq.2)

/-- Embedding of logupqOld(r0, r1, nt, ni): evenly spaced impulse positions
us[j] = umax/(ni+1)·(j+1), unit amplitudes, same u and t maps as logupq. -/
noncomputable def logupqOld (r0 r1 : ℝ) (nt ni : ℕ) : List ℝ × List ℝ × List ℝ :=
  let umax : ℝ := (nt : ℝ) - 1
  let us : List ℝ := (List.range ni).map (fun j : ℕ => umax / (ni + 1) + (umax / (ni + 1)) * (j : ℝ))
  let u := logupq_u r0 r1 nt
  let imps := us.map (fun ui => (logupq_t r0 r1 nt ui, ui, (1 : ℝ)))
  let pq := accumPQ logupqOld_si nt imps
  (u, pq.1, pq.2)

/-- Embedding of expupq(r0, r1, nt, ni): with b = log(r1/r0)/tmax and
a = r0/b, the warp is u[i] = tmax − a·(exp(b·i) − 1); impulses at evenly
spaced tp with tq = tmax − a·(exp(b·tp) − 1) and alternating amplitudes
(+1, −1, +1, ...). -/
noncomputable def expupq (r0 r1 : ℝ) (nt ni : ℕ) : List ℝ × List ℝ × List ℝ :=
  let tmax : ℝ := (nt : ℝ) - 1
  let b := Real.log (r1 / r0) / tmax
  let a := r0 / b
  let u := (List.range nt).map (fun i : ℕ => tmax - a * (Real.exp (b * (i : ℝ)) - 1))
  let ts : List ℝ := (List.range ni).map (fun j : ℕ => tmax / (ni + 1) + (tmax / (ni + 1)) * (j : ℝ))
  let imps := ts.mapIdx (fun ji tp => (tp, tmax - a * (Real.exp (b * tp) - 1), ((-1 : ℝ)) ^ ji))
  let pq := accumPQ expupq_si nt imps
  (u, pq.1, pq.2)

/-- The warp curve u built by nmoupq: u[i] = sqrt(i² + a) with
a = tmax²·(1/r1² − 1) and tmax = nt − 1. -/
noncomputable def nmoupq_u (r1 : ℝ) (nt : ℕ) : List ℝ :=
  let tmax : ℝ := (nt : ℝ) - 1
  (List.range nt).map (fun i : ℕ => Real.sqrt ((i : ℝ) ^ 2 + tmax * tmax * (1 / (r1 * r1) - 1)))

/-- Embedding of nmoupq(r0, r1, nt, ni): hyperbolic (NMO-style) warp
u[i] = sqrt(i² + a); impulses at evenly spaced tp with tq = sqrt(tp² + a) and
alternating amplitudes.  The r0 argument is accepted but unused, as in the
script. -/
noncomputable def nmoupq (r0 r1 : ℝ) (nt ni : ℕ) : List ℝ × List ℝ × List ℝ :=
  let tmax : ℝ := (nt : ℝ) - 1
  let a := tmax * tmax * (1 / (r1 * r1) - 1)
  let u := nmoupq_u r1 nt
  let ts : List ℝ := (List.range ni).map (fun j : ℕ => tmax / (ni + 1) + (tmax / (ni + 1)) * (j : ℝ))
  let imps := ts.mapIdx (fun ji tp => (tp, Real.sqrt (tp * tp + a), ((-1 : ℝ)) ^ ji))
  let pq := accumPQ nmoupq_si nt imps
  (u, pq.1, pq.2)

/-- Embedding of makeImpulses(r, nt, ni) of the warp script: impulse pairs at
tp (evenly spaced, compressed by r when r > 1) and tq = r·tp, shifted by
(1 − r)·tmax when r ≤ 1, with alternating amplitudes. -/
noncomputable def makeImpulses (r : ℝ) (nt ni : ℕ) : List ℝ × List ℝ :=
  let tmax : ℝ := (nt : ℝ) - 1
  let ts : List ℝ :=
    if r ≤ 1 then
      (List.range ni).map (fun j : ℕ => tmax / (ni + 1) + (tmax / (ni + 1)) * (j : ℝ))
    else
      (List.range ni).map (fun j : ℕ => tmax / (ni + 1) / r + (tmax / (ni + 1) / r) * (j : ℝ))
  let imps := ts.mapIdx (fun ji tp =>
    (tp, if r ≤ 1 then r * tp + (1 - r) * tmax else r * tp, ((-1 : ℝ)) ^ ji))
  let pq := accumPQ makeImpulses_si nt imps
  (pq.1, pq.2)

/-- ArrayMath.max over a float array, as the loop fold of the binary max
starting from the first element (0 for an empty array, which the library
would reject). -/
noncomputable def listMax : List ℝ → ℝ
  | [] => 0
  | x :: xs => xs.foldl max x

/-- ArrayMath.min over a float array, as the loop fold of the binary min
starting from the first element. -/
noncomputable def listMin : List ℝ → ℝ
  | [] => 0
  | x :: xs => xs.foldl min x

/-- The scale computed by normalizeMax: 1/maxf when minf < maxf, else
−1/minf, where maxf = |max f| and minf = |min f|. -/
noncomputable def normScale (f : List ℝ) : ℝ :=
  if |listMin f| < |listMax f| then 1 / |listMax f| else -1 / |listMin f|

/-- Embedding of normalizeMax(f).  The script computes maxf = abs(max(f)) and
minf = abs(min(f)), picks scale = 1/maxf if minf < maxf else scale = −1/minf,
and executes mul(scale, f, f), overwriting f in place and returning it.  The
value returned here is the final contents of the array f; none models the
ZeroDivisionError Jython raises for −1.0/0.0 (the branch taken when minf <
maxf always has maxf > 0). -/
noncomputable def normalizeMax (f : List ℝ) : Option (List ℝ) :=
  if |listMin f| < |listMax f| then
    some (f.map (fun x => 1 / |listMax f| * x))
  else if |listMin f| = 0 then none
  else
    some (f.map (fun x => -1 / |listMin f| * x))

end Warpab

namespace Sos2

/-! Embedding of bench/src/lss/sos2.py. -/

/-- The sequence of (row, column) index pairs written by the loops of
makeImpulses(n1, n2, k1, k2) in sos2.py, in program order: with
m1 = n1/k1, m2 = n2/k2 (Python floor division), j1 = (n1 − (m1−1)·k1)/2 and
j2 = (n2 − (m2−1)·k2)/2, the pair (j2 + i2·k2, j1 + i1·k1) for i2 in
range(m2) and i1 in range(m1). -/
def mkImpPairs (n1 n2 k1 k2 : ℤ) : List (ℤ × ℤ) :=
  let m1 := Int.fdiv n1 k1
  let m2 := Int.fdiv n2 k2
  let j1 := Int.fdiv (n1 - (m1 - 1) * k1) 2
  let j2 := Int.fdiv (n2 - (m2 - 1) * k2) 2
  (List.range m2.toNat).flatMap (fun i2 : ℕ =>
    (List.range m1.toNat).map (fun i1 : ℕ => (j2 + (i2 : ℤ) * k2, j1 + (i1 : ℤ) * k1)))

/-- Embedding of makeImpulses(n1, n2, k1, k2) of sos2.py: the n1×n2 array
(represented as a function of row index i2 and column index i1, the same
addressing f[i2][i1] the script uses) that starts as zerofloat(n1, n2) and
receives the value 1.0 at each written index pair in order. -/
noncomputable def makeImpulses (n1 n2 k1 k2 : ℤ) : ℤ → ℤ → ℝ :=
  (mkImpPairs n1 n2 k1 k2).foldl
    (fun f p => fun i2 i1 => if i2 = p.1 ∧ i1 = p.2 then 1 else f i2 i1)
    (fun _ _ => 0)

end Sos2

/-! Helper lemmas. -/

theorem getD_rangeMap {α : Type*} (f : ℕ → α) (n i : ℕ) (d : α) (h : i < n) :
    ((List.range n).map f).getD i d = f i := by
  rw [List.getD_eq_getElem _ _ (by simpa using h)]
  simp

theorem sinc_intCast (n : ℤ) : sinc (n : ℝ) = if n = 0 then 1 else 0 := by
  by_cases h : n = 0
  · simp [sinc, h]
  · have hn : (n : ℝ) ≠ 0 := Int.cast_ne_zero.mpr h
    have hs : Real.sin (Real.pi * (n : ℝ)) = 0 := by
      rw [mul_comm]; exact Real.sin_int_mul_pi n
    simp [sinc, hn, hs, h]

theorem sincInterp_natCast (x : List ℝ) (i : ℕ) (h : i < x.length) :
    sincInterp x (i : ℝ) = x.getD i 0 := by
  unfold sincInterp
  have hterm : ∀ j ∈ Finset.range x.length,
      x.getD j 0 * sinc ((i : ℝ) - (j : ℝ)) = if j = i then x.getD j 0 else 0 := by
    intro j _
    have hcast : (i : ℝ) - (j : ℝ) = (((i : ℤ) - (j : ℤ) : ℤ) : ℝ) := by push_cast; ring
    rw [hcast, sinc_intCast]
    by_cases hji : j = i
    · simp [hji]
    · have : (i : ℤ) - (j : ℤ) ≠ 0 := by
        omega
      simp [this, hji]
  rw [Finset.sum_congr rfl hterm, Finset.sum_ite_eq' (Finset.range x.length) i (fun j => x.getD j 0)]
  simp [h]

theorem convolve_length (h : Filter) (x : List ℝ) : (convolve h x).length = x.length := by
  unfold convolve
  rw [List.length_map, List.length_range]

theorem resample_length (u x : List ℝ) : (resample u x).length = u.length := by
  unfold resample
  rw [List.length_map]

theorem idRamp_length (n : ℕ) : (idRamp n).length = n := by
  unfold idRamp
  rw [List.length_map, List.length_range]

theorem resample_idRamp_getD (n : ℕ) (y : List ℝ) (t : ℕ) (htn : t < n) (hty : t < y.length) :
    (resample (idRamp n) y).getD t 0 = y.getD t 0 := by
  have hlen : t < (resample (idRamp n) y).length := by
    rw [resample_length, idRamp_length]; exact htn
  rw [List.getD_eq_getElem _ _ hlen]
  unfold resample idRamp
  simp only [List.getElem_map, List.getElem_range]
  exact sincInterp_natCast y t hty

theorem getZ_natCast (x : List ℝ) (t : ℕ) : getZ x (t : ℤ) = x.getD t 0 := by
  simp [getZ]

theorem convolve_single_getD (c : ℝ) (x : List ℝ) (t : ℕ) (ht : t < x.length) :
    (convolve ⟨[c], 0⟩ x).getD t 0 = c * x.getD t 0 := by
  have hlen : t < (convolve ⟨[c], 0⟩ x).length := by
    rw [convolve_length]; exact ht
  rw [List.getD_eq_getElem _ _ hlen]
  unfold convolve
  simp only [List.getElem_map, List.getElem_range]
  have : ((t : ℤ) - (0 : ℕ) + 0) = (t : ℤ) := by push_cast; ring
  simp [Finset.sum_range_one, this, getZ_natCast]

/-- C4: every sinc-interpolation kernel constructed by the program uses the
fixed default parameters, maximum interpolation error 0.01 and passband edge
0.45 of Nyquist.  The five construction sites are logupq, logupqOld, expupq,
nmoupq and makeImpulses of the warp script; the sos2 script constructs no
sinc interpolator. -/
theorem C4_sinc_kernel_defaults :
    (Warpab.logupq_si.emax = 0.01 ∧ Warpab.logupq_si.fmax = 0.45) ∧
    (Warpab.logupqOld_si.emax = 0.01 ∧ Warpab.logupqOld_si.fmax = 0.45) ∧
    (Warpab.expupq_si.emax = 0.01 ∧ Warpab.expupq_si.fmax = 0.45) ∧
    (Warpab.nmoupq_si.emax = 0.01 ∧ Warpab.nmoupq_si.fmax = 0.45) ∧
    (Warpab.makeImpulses_si.emax = 0.01 ∧ Warpab.makeImpulses_si.fmax = 0.45) :=
  ⟨⟨rfl, rfl⟩, ⟨rfl, rfl⟩, ⟨rfl, rfl⟩, ⟨rfl, rfl⟩, rfl, rfl⟩

/-- C10: logupq is deterministic: its result does not depend on the ambient
entropy that an unseeded generator would consume, because the internal random
generator is constructed with the fixed seed 3; hence any two calls with
equal arguments (r0, r1, nt, ni) return identical triples (u, p, q). -/
theorem C10_logupq_deterministic (ambient1 ambient2 : ℕ) (r0 r1 : ℝ) (nt ni : ℕ) :
    Warpab.logupq ambient1 r0 r1 nt ni = Warpab.logupq ambient2 r0 r1 nt ni := rfl

theorem foldl_max_le_iff {α : Type*} [LinearOrder α] (xs : List α) (acc c : α) :
    xs.foldl max acc ≤ c ↔ acc ≤ c ∧ ∀ y ∈ xs, y ≤ c := by
  induction xs generalizing acc with
  | nil => simp
  | cons x xs ih =>
    rw [List.foldl_cons, ih]
    simp only [List.mem_cons, max_le_iff]
    constructor
    · rintro ⟨⟨h1, h2⟩, h3⟩
      exact ⟨h1, fun y hy => hy.elim (fun hx => hx ▸ h2) (h3 y)⟩
    · rintro ⟨h1, h2⟩
      exact ⟨⟨h1, h2 x (Or.inl rfl)⟩, fun y hy => h2 y (Or.inr hy)⟩

theorem foldl_max_mem {α : Type*} [LinearOrder α] (xs : List α) (acc : α) :
    xs.foldl max acc = acc ∨ xs.foldl max acc ∈ xs := by
  induction xs generalizing acc with
  | nil => simp
  | cons x xs ih =>
    rw [List.foldl_cons]
    rcases ih (max acc x) with h | h
    · rcases max_choice acc x with h2 | h2
      · exact Or.inl (h.trans h2)
      · refine Or.inr ?_
        rw [h, h2]
        exact List.mem_cons_self x xs
    · exact Or.inr (List.mem_cons_of_mem x h)

theorem le_foldl_min_iff {α : Type*} [LinearOrder α] (xs : List α) (acc c : α) :
    c ≤ xs.foldl min acc ↔ c ≤ acc ∧ ∀ y ∈ xs, c ≤ y := by
  induction xs generalizing acc with
  | nil => simp
  | cons x xs ih =>
    rw [List.foldl_cons, ih]
    simp only [List.mem_cons, le_min_iff]
    constructor
    · rintro ⟨⟨h1, h2⟩, h3⟩
      exact ⟨h1, fun y hy => hy.elim (fun hx => hx ▸ h2) (h3 y)⟩
    · rintro ⟨h1, h2⟩
      exact ⟨⟨h1, h2 x (Or.inl rfl)⟩, fun y hy => h2 y (Or.inr hy)⟩

theorem foldl_min_mem {α : Type*} [LinearOrder α] (xs : List α) (acc : α) :
    xs.foldl min acc = acc ∨ xs.foldl min acc ∈ xs := by
  induction xs generalizing acc with
  | nil => simp
  | cons x xs ih =>
    rw [List.foldl_cons]
    rcases ih (min acc x) with h | h
    · rcases min_choice acc x with h2 | h2
      · exact Or.inl (h.trans h2)
      · refine Or.inr ?_
        rw [h, h2]
        exact List.mem_cons_self x xs
    · exact Or.inr (List.mem_cons_of_mem x h)

theorem le_listMax (l : List ℝ) (y : ℝ) (hy : y ∈ l) : y ≤ Warpab.listMax l := by
  cases l with
  | nil => cases hy
  | cons x xs =>
    have h := (foldl_max_le_iff xs x (xs.foldl max x)).mp le_rfl
    show y ≤ xs.foldl max x
    rcases List.mem_cons.mp hy with rfl | hmem
    · exact h.1
    · exact h.2 y hmem

theorem listMax_le (l : List ℝ) (c : ℝ) (hl : l ≠ []) (h : ∀ y ∈ l, y ≤ c) :
    Warpab.listMax l ≤ c := by
  cases l with
  | nil => exact absurd rfl hl
  | cons x xs =>
    show xs.foldl max x ≤ c
    exact (foldl_max_le_iff xs x c).mpr
      ⟨h x (List.mem_cons_self x xs), fun y hy => h y (List.mem_cons_of_mem x hy)⟩

theorem listMax_mem (l : List ℝ) (hl : l ≠ []) : Warpab.listMax l ∈ l := by
  cases l with
  | nil => exact absurd rfl hl
  | cons x xs =>
    show xs.foldl max x ∈ x :: xs
    rcases foldl_max_mem xs x with h | h
    · rw [h]
      exact List.mem_cons_self x xs
    · exact List.mem_cons_of_mem x h

theorem listMin_le (l : List ℝ) (y : ℝ) (hy : y ∈ l) : Warpab.listMin l ≤ y := by
  cases l with
  | nil => cases hy
  | cons x xs =>
    have h := (le_foldl_min_iff xs x (xs.foldl min x)).mp le_rfl
    show xs.foldl min x ≤ y
    rcases List.mem_cons.mp hy with rfl | hmem
    · exact h.1
    · exact h.2 y hmem

theorem listMin_mem (l : List ℝ) (hl : l ≠ []) : Warpab.listMin l ∈ l := by
  cases l with
  | nil => exact absurd rfl hl
  | cons x xs =>
    show xs.foldl min x ∈ x :: xs
    rcases foldl_min_mem xs x with h | h
    · rw [h]
      exact List.mem_cons_self x xs
    · exact List.mem_cons_of_mem x h

theorem listMax_eq_one (l : List ℝ) (h1 : ∀ y ∈ l, y ≤ 1) (h2 : ∃ y ∈ l, y = 1) :
    Warpab.listMax l = 1 := by
  obtain ⟨y, hy, rfl⟩ := h2
  have hne : l ≠ [] := by
    intro h
    subst h
    cases hy
  exact le_antisymm (listMax_le l 1 hne h1) (le_listMax l 1 hy)

/-- C6: for every warp function u and every input signal x, the resampling
operator returns a signal whose length equals the length of the warp
function; in particular warping an 852-sample trace with a 501-sample warp
yields a 501-sample trace, not an 852-sample one. -/
theorem C6_resample_length :
    (∀ u x : List ℝ, (resample u x).length = u.length) ∧
    (resample (List.replicate 501 (0 : ℝ)) (List.replicate 852 (0 : ℝ))).length = 501 ∧
    (List.replicate 852 (0 : ℝ)).length ≠ 501 := by
  refine ⟨resample_length, ?_, ?_⟩
  · rw [resample_length, List.length_replicate]
  · rw [List.length_replicate]
    norm_num

/-- C8: for every float array containing at least one nonzero sample,
normalizeMax rescales the array so that its maximum absolute sample value is
exactly 1 afterward; for a (nonempty) all-zero input array the function
instead attempts a division by zero (modelled by none, the embedded image of
the ZeroDivisionError raised by −1.0/0.0). -/
theorem C8_normalizeMax :
    (∀ f : List ℝ, (∃ x ∈ f, x ≠ 0) →
      ∃ r, Warpab.normalizeMax f = some r ∧
        Warpab.listMax (r.map (fun v => |v|)) = 1) ∧
    (∀ f : List ℝ, f ≠ [] → (∀ x ∈ f, x = 0) → Warpab.normalizeMax f = none) := by
  constructor
  · intro f hx
    obtain ⟨x0, hx0mem, hx0⟩ := hx
    have hne : f ≠ [] := by
      intro h
      subst h
      cases hx0mem
    have hMmem := listMax_mem f hne
    have hmmem := listMin_mem f hne
    by_cases h : |Warpab.listMin f| < |Warpab.listMax f|
    · have hMpos : 0 < Warpab.listMax f := by
        rcases lt_trichotomy (Warpab.listMax f) 0 with hlt | heq | hgt
        · exfalso
          have hmM : Warpab.listMin f ≤ Warpab.listMax f := listMin_le f _ hMmem
          have hcon : |Warpab.listMax f| ≤ |Warpab.listMin f| := by
            rw [abs_of_neg hlt, abs_of_neg (lt_of_le_of_lt hmM hlt)]
            linarith
          linarith
        · exfalso
          rw [heq, abs_zero] at h
          linarith [abs_nonneg (Warpab.listMin f)]
        · exact hgt
      have hMabs : |Warpab.listMax f| = Warpab.listMax f := abs_of_pos hMpos
      refine ⟨f.map (fun x => 1 / |Warpab.listMax f| * x), ?_, ?_⟩
      · unfold Warpab.normalizeMax
        rw [if_pos h]
      · apply listMax_eq_one
        · intro y hy
          rw [List.mem_map] at hy
          obtain ⟨z, hz, rfl⟩ := hy
          rw [List.mem_map] at hz
          obtain ⟨w, hw, rfl⟩ := hz
          have hwM : |w| ≤ Warpab.listMax f := by
            rw [abs_le]
            constructor
            · have h1 : Warpab.listMin f ≤ w := listMin_le f w hw
              have h2 : -|Warpab.listMin f| ≤ Warpab.listMin f := neg_abs_le _
              have h3 : |Warpab.listMin f| ≤ Warpab.listMax f := by
                rw [← hMabs]
                exact le_of_lt h
              linarith
            · exact le_listMax f w hw
          rw [hMabs]
          rw [abs_mul, abs_of_nonneg (by positivity : (0:ℝ) ≤ 1 / Warpab.listMax f)]
          calc 1 / Warpab.listMax f * |w| ≤ 1 / Warpab.listMax f * Warpab.listMax f :=
                mul_le_mul_of_nonneg_left hwM (by positivity)
            _ = 1 := one_div_mul_cancel (ne_of_gt hMpos)
        · refine ⟨abs (1 / abs (Warpab.listMax f) * Warpab.listMax f), ?_, ?_⟩
          · exact List.mem_map_of_mem _ (List.mem_map_of_mem _ hMmem)
          · rw [hMabs, one_div_mul_cancel (ne_of_gt hMpos), abs_one]
    · have hMm : |Warpab.listMax f| ≤ |Warpab.listMin f| := not_lt.mp h
      have hmne : |Warpab.listMin f| ≠ 0 := by
        intro h0
        have hm0 : Warpab.listMin f = 0 := abs_eq_zero.mp h0
        have hM0 : Warpab.listMax f = 0 := by
          rw [h0] at hMm
          exact abs_eq_zero.mp (le_antisymm hMm (abs_nonneg _))
        have h1 := listMin_le f x0 hx0mem
        have h2 := le_listMax f x0 hx0mem
        apply hx0
        rw [hm0] at h1
        rw [hM0] at h2
        linarith
      have hmpos : 0 < |Warpab.listMin f| := (abs_nonneg _).lt_of_ne (Ne.symm hmne)
      refine ⟨f.map (fun x => -1 / |Warpab.listMin f| * x), ?_, ?_⟩
      · unfold Warpab.normalizeMax
        rw [if_neg h, if_neg hmne]
      · have habs_scale : abs ((-1 : ℝ) / abs (Warpab.listMin f)) = 1 / |Warpab.listMin f| := by
          rw [abs_div, abs_neg, abs_one, abs_abs]
        apply listMax_eq_one
        · intro y hy
          rw [List.mem_map] at hy
          obtain ⟨z, hz, rfl⟩ := hy
          rw [List.mem_map] at hz
          obtain ⟨w, hw, rfl⟩ := hz
          have hwm : |w| ≤ |Warpab.listMin f| := by
            rw [abs_le]
            constructor
            · have h1 : Warpab.listMin f ≤ w := listMin_le f w hw
              have h2 : -|Warpab.listMin f| ≤ Warpab.listMin f := neg_abs_le _
              linarith
            · have h1 : w ≤ Warpab.listMax f := le_listMax f w hw
              have h2 : Warpab.listMax f ≤ |Warpab.listMax f| := le_abs_self _
              linarith
          rw [abs_mul, habs_scale]
          calc 1 / |Warpab.listMin f| * |w| ≤ 1 / |Warpab.listMin f| * |Warpab.listMin f| :=
                mul_le_mul_of_nonneg_left hwm (by positivity)
            _ = 1 := one_div_mul_cancel hmne
        · refine ⟨abs ((-1) / abs (Warpab.listMin f) * Warpab.listMin f), ?_, ?_⟩
          · exact List.mem_map_of_mem _ (List.mem_map_of_mem _ hmmem)
          · rw [abs_mul, habs_scale, one_div, inv_mul_eq_div, div_self hmne]
  · intro f hne hzero
    have hM : Warpab.listMax f = 0 := hzero _ (listMax_mem f hne)
    have hm : Warpab.listMin f = 0 := hzero _ (listMin_mem f hne)
    unfold Warpab.normalizeMax
    rw [hM, hm, abs_zero]
    simp

/-- Witness for C8: the array [2] has a nonzero sample and is rescaled to a
maximum absolute value of exactly 1, and the all-zero array [0] makes
normalizeMax divide by zero. -/
theorem C8_normalizeMax_w :
    (∃ x ∈ [(2 : ℝ)], x ≠ 0) ∧
    (∃ r, Warpab.normalizeMax [(2 : ℝ)] = some r ∧
      Warpab.listMax (r.map (fun v => |v|)) = 1) ∧
    ([(0 : ℝ)] ≠ []) ∧ Warpab.normalizeMax [(0 : ℝ)] = none := by
  refine ⟨⟨2, by simp, by norm_num⟩, C8_normalizeMax.1 [2] ⟨2, by simp, by norm_num⟩,
    by simp, C8_normalizeMax.2 [0] (by simp) (by simp)⟩

/-- C3 counterexample: normalizeMax does modify the array passed to it.  On
the array [2] the call executes mul(-1/2, f, f), after which the array holds
[-1], not its original contents [2]. -/
theorem C3_cex_normalizeMax_mutates :
    Warpab.normalizeMax [(2 : ℝ)] = some [-1] ∧ ([(-1 : ℝ)] : List ℝ) ≠ [2] := by
  constructor
  · have hmax : Warpab.listMax [(2 : ℝ)] = 2 := rfl
    have hmin : Warpab.listMin [(2 : ℝ)] = 2 := rfl
    unfold Warpab.normalizeMax
    rw [hmax, hmin]
    norm_num
  · intro hcon
    have h1 : (-1 : ℝ) = 2 := by
      injection hcon
    norm_num at h1

/-- C3 amended: the driver helpers are not pure: normalizeMax overwrites the
array passed to it in place with the rescaled samples (scale 1/|max f| when
|min f| < |max f|, else −1/|min f|) and returns that same mutated array, so
the input array is not left unchanged (gain likewise overwrites its argument
via div(f, sqrt(g), f)).  Formally: whenever normalizeMax succeeds, the final
contents of its argument array are the pointwise scaling of the initial
contents by normScale f. -/
theorem C3_amended_inplace :
    ∀ f r : List ℝ, Warpab.normalizeMax f = some r →
      r = f.map (fun x => Warpab.normScale f * x) := by
  intro f r h
  by_cases h1 : |Warpab.listMin f| < |Warpab.listMax f|
  · unfold Warpab.normalizeMax at h
    rw [if_pos h1] at h
    unfold Warpab.normScale
    rw [if_pos h1]
    exact (Option.some.inj h).symm
  · unfold Warpab.normalizeMax at h
    rw [if_neg h1] at h
    by_cases h2 : |Warpab.listMin f| = 0
    · rw [if_pos h2] at h
      cases h
    · rw [if_neg h2] at h
      unfold Warpab.normScale
      rw [if_neg h1]
      exact (Option.some.inj h).symm

/-- Witness for the amended C3: on the concrete array [2] normalizeMax
succeeds and the final contents [-1] are exactly the normScale-scaled initial
contents. -/
theorem C3_amended_inplace_w :
    Warpab.normalizeMax [(2 : ℝ)] = some [-1] ∧
    ([(-1 : ℝ)] : List ℝ) = [2].map (fun x => Warpab.normScale [2] * x) := by
  have h : Warpab.normalizeMax [(2 : ℝ)] = some [-1] := by
    have hmax : Warpab.listMax [(2 : ℝ)] = 2 := rfl
    have hmin : Warpab.listMin [(2 : ℝ)] = 2 := rfl
    unfold Warpab.normalizeMax
    rw [hmax, hmin]
    norm_num
  exact ⟨h, C3_amended_inplace [2] [-1] h⟩

theorem logupq_u_mono (r0 r1 : ℝ) (nt i : ℕ) (h1 : 0 < r1) (h2 : r1 ≤ r0)
    (h3 : i + 1 < nt) :
    (Warpab.logupq_u r0 r1 nt).getD i 0 ≤ (Warpab.logupq_u r0 r1 nt).getD (i + 1) 0 := by
  have hi : i < nt := by omega
  have hcast : ((i + 1 : ℕ) : ℝ) = (i : ℝ) + 1 := by push_cast; ring
  by_cases heq : r0 = r1
  · simp only [Warpab.logupq_u, if_pos heq]
    rw [getD_rangeMap _ _ _ _ hi, getD_rangeMap _ _ _ _ h3, hcast]
    have hr0 : 0 < r0 := heq ▸ h1
    nlinarith [(Nat.cast_nonneg i : (0 : ℝ) ≤ (i : ℝ))]
  · simp only [Warpab.logupq_u, if_neg heq]
    rw [getD_rangeMap _ _ _ _ hi, getD_rangeMap _ _ _ _ h3, hcast]
    have hr0 : 0 < r0 := h1.trans_le h2
    have hlt : r1 < r0 := lt_of_le_of_ne h2 (fun hh => heq hh.symm)
    have hnt2 : (2 : ℝ) ≤ (nt : ℝ) := by exact_mod_cast (by omega : 2 ≤ nt)
    have humax : 0 < (nt : ℝ) - 1 := by linarith
    have hlog : 0 < Real.log (r0 / r1) := Real.log_pos ((one_lt_div h1).mpr hlt)
    have ha' : 0 < ((nt : ℝ) - 1) / Real.log (r0 / r1) := by positivity
    have hb : 0 < r0 / (((nt : ℝ) - 1) / Real.log (r0 / r1)) := by positivity
    have hargpos : 0 < 1 + r0 / (((nt : ℝ) - 1) / Real.log (r0 / r1)) * (i : ℝ) := by
      have : 0 ≤ r0 / (((nt : ℝ) - 1) / Real.log (r0 / r1)) * (i : ℝ) := by positivity
      linarith
    apply mul_le_mul_of_nonneg_left _ (le_of_lt ha')
    apply Real.log_le_log hargpos
    have : 0 ≤ r0 / (((nt : ℝ) - 1) / Real.log (r0 / r1)) := le_of_lt hb
    nlinarith

theorem nmoupq_u_mono (r1 : ℝ) (nt i : ℕ) (h1 : 0 < r1) (h2 : r1 ≤ 1)
    (h3 : i + 1 < nt) :
    (Warpab.nmoupq_u r1 nt).getD i 0 ≤ (Warpab.nmoupq_u r1 nt).getD (i + 1) 0 := by
  have hi : i < nt := by omega
  simp only [Warpab.nmoupq_u]
  rw [getD_rangeMap _ _ _ _ hi, getD_rangeMap _ _ _ _ h3]
  apply Real.sqrt_le_sqrt
  have hcast : ((i + 1 : ℕ) : ℝ) = (i : ℝ) + 1 := by push_cast; ring
  rw [hcast]
  nlinarith [(Nat.cast_nonneg i : (0 : ℝ) ≤ (i : ℝ))]

/-- C5: every warp curve u produced by the synthetic warp generators is
monotonically non-decreasing (u[i+1] ≥ u[i] for all valid i): for logupq
whenever r0 ≥ r1 > 0, and for nmoupq whenever 0 < r1 ≤ 1. -/
theorem C5_warp_monotone :
    (∀ (ambient : ℕ) (r0 r1 : ℝ) (nt ni i : ℕ), 0 < r1 → r1 ≤ r0 → i + 1 < nt →
      ((Warpab.logupq ambient r0 r1 nt ni).1).getD i 0 ≤
        ((Warpab.logupq ambient r0 r1 nt ni).1).getD (i + 1) 0) ∧
    (∀ (r0 r1 : ℝ) (nt ni i : ℕ), 0 < r1 → r1 ≤ 1 → i + 1 < nt →
      ((Warpab.nmoupq r0 r1 nt ni).1).getD i 0 ≤
        ((Warpab.nmoupq r0 r1 nt ni).1).getD (i + 1) 0) := by
  constructor
  · intro ambient r0 r1 nt ni i hr1 hr01 hint
    have hfst : (Warpab.logupq ambient r0 r1 nt ni).1 = Warpab.logupq_u r0 r1 nt := rfl
    rw [hfst]
    exact logupq_u_mono r0 r1 nt i hr1 hr01 hint
  · intro r0 r1 nt ni i hr1 hr11 hint
    have hfst : (Warpab.nmoupq r0 r1 nt ni).1 = Warpab.nmoupq_u r1 nt := rfl
    rw [hfst]
    exact nmoupq_u_mono r1 nt i hr1 hr11 hint

/-- Witness for C5: at r0 = 2, r1 = 1, nt = 3, ni = 1, both generated warp
curves are non-decreasing between samples 0 and 1. -/
theorem C5_warp_monotone_w :
    ((0 : ℝ) < 1 ∧ (1 : ℝ) ≤ 2 ∧ 0 + 1 < 3) ∧
    ((Warpab.logupq 0 2 1 3 1).1).getD 0 0 ≤ ((Warpab.logupq 0 2 1 3 1).1).getD (0 + 1) 0 ∧
    ((Warpab.nmoupq 2 1 3 1).1).getD 0 0 ≤ ((Warpab.nmoupq 2 1 3 1).1).getD (0 + 1) 0 :=
  ⟨⟨by norm_num, by norm_num, by norm_num⟩,
    C5_warp_monotone.1 0 2 1 3 1 0 (by norm_num) (by norm_num) (by norm_num),
    C5_warp_monotone.2 2 1 3 1 0 (by norm_num) (by norm_num) (by norm_num)⟩

theorem fdiv_facts (a b : ℤ) (ha : 0 ≤ a) (hb : 0 < b) :
    b * a.fdiv b ≤ a ∧ a < b * a.fdiv b + b := by
  rw [Int.fdiv_eq_ediv _ (le_of_lt hb)]
  have hmod := Int.ediv_add_emod a b
  have h1 := Int.emod_nonneg a (ne_of_gt hb)
  have h2 := Int.emod_lt_of_pos a hb
  constructor <;> linarith

theorem impIndex_bound (n k : ℤ) (i : ℕ) (hn : 0 < n) (hk : 0 < k)
    (hi : (i : ℤ) < n.fdiv k) :
    0 ≤ Int.fdiv (n - (n.fdiv k - 1) * k) 2 + (i : ℤ) * k ∧
    Int.fdiv (n - (n.fdiv k - 1) * k) 2 + (i : ℤ) * k < n := by
  have hfd := fdiv_facts n k (le_of_lt hn) hk
  have hPk : k * n.fdiv k = (n.fdiv k - 1) * k + k := by ring
  have hA : 0 < n - (n.fdiv k - 1) * k := by linarith [hfd.1]
  have hj := fdiv_facts (n - (n.fdiv k - 1) * k) 2 (le_of_lt hA) (by norm_num)
  have hj0 : 0 ≤ Int.fdiv (n - (n.fdiv k - 1) * k) 2 := by linarith [hj.2]
  have hik : (i : ℤ) * k ≤ (n.fdiv k - 1) * k := by
    apply mul_le_mul_of_nonneg_right _ (le_of_lt hk)
    omega
  have hik0 : 0 ≤ (i : ℤ) * k := mul_nonneg (Int.natCast_nonneg i) (le_of_lt hk)
  constructor
  · linarith
  · rcases eq_or_lt_of_le hj0 with hj0' | hj1
    · linarith [hfd.1]
    · linarith [hj.1]

theorem foldl_write01 (L : List (ℤ × ℤ)) :
    ∀ f : ℤ → ℤ → ℝ, (∀ i2 i1, f i2 i1 = 0 ∨ f i2 i1 = 1) → ∀ i2 i1,
      (L.foldl (fun f p => fun i2 i1 => if i2 = p.1 ∧ i1 = p.2 then 1 else f i2 i1) f) i2 i1 = 0 ∨
      (L.foldl (fun f p => fun i2 i1 => if i2 = p.1 ∧ i1 = p.2 then 1 else f i2 i1) f) i2 i1 = 1 := by
  induction L with
  | nil => intro f hf i2 i1; exact hf i2 i1
  | cons q L ih =>
    intro f hf i2 i1
    rw [List.foldl_cons]
    apply ih
    intro i2' i1'
    by_cases hc : i2' = q.1 ∧ i1' = q.2
    · exact Or.inr (if_pos hc)
    · rw [if_neg hc]
      exact hf i2' i1'

/-- C9: for all positive n1, n2, k1, k2, every array write performed by
makeImpulses of sos2.py is within bounds (each written (row, column) pair
lies in [0,n2)×[0,n1), the array being indexed f[i2][i1] with i1 in [0,n1)
and i2 in [0,n2)), and the returned array has every entry equal to either
0.0 or 1.0. -/
theorem C9_makeImpulses_safe :
    ∀ n1 n2 k1 k2 : ℤ, 0 < n1 → 0 < n2 → 0 < k1 → 0 < k2 →
      (∀ p ∈ Sos2.mkImpPairs n1 n2 k1 k2,
        (0 ≤ p.2 ∧ p.2 < n1) ∧ (0 ≤ p.1 ∧ p.1 < n2)) ∧
      (∀ i2 i1 : ℤ, Sos2.makeImpulses n1 n2 k1 k2 i2 i1 = 0 ∨
        Sos2.makeImpulses n1 n2 k1 k2 i2 i1 = 1) := by
  intro n1 n2 k1 k2 hn1 hn2 hk1 hk2
  constructor
  · intro p hp
    simp only [Sos2.mkImpPairs, List.mem_flatMap, List.mem_map, List.mem_range] at hp
    obtain ⟨i2, hi2, i1, hi1, rfl⟩ := hp
    have hb1 := impIndex_bound n1 k1 i1 hn1 hk1 (by
      have := Int.lt_toNat.mp hi1
      omega)
    have hb2 := impIndex_bound n2 k2 i2 hn2 hk2 (by
      have := Int.lt_toNat.mp hi2
      omega)
    exact ⟨hb1, hb2⟩
  · intro i2 i1
    unfold Sos2.makeImpulses
    exact foldl_write01 (Sos2.mkImpPairs n1 n2 k1 k2) (fun _ _ => 0)
      (fun _ _ => Or.inl rfl) i2 i1

/-- Witness for C9: at n1 = n2 = 5, k1 = k2 = 2, the write bounds and the
0/1-valuedness hold. -/
theorem C9_makeImpulses_safe_w :
    ((0 : ℤ) < 5 ∧ (0 : ℤ) < 5 ∧ (0 : ℤ) < 2 ∧ (0 : ℤ) < 2) ∧
    ((∀ p ∈ Sos2.mkImpPairs 5 5 2 2, (0 ≤ p.2 ∧ p.2 < 5) ∧ (0 ≤ p.1 ∧ p.1 < 5)) ∧
      (∀ i2 i1 : ℤ, Sos2.makeImpulses 5 5 2 2 i2 i1 = 0 ∨
        Sos2.makeImpulses 5 5 2 2 i2 i1 = 1)) :=
  ⟨⟨by decide, by decide, by decide, by decide⟩,
    C9_makeImpulses_safe 5 5 2 2 (by decide) (by decide) (by decide) (by decide)⟩

theorem sumSq_append (a b : List ℝ) : sumSq (a ++ b) = sumSq a + sumSq b := by
  simp [sumSq]

theorem sumSq_single (c : ℝ) : sumSq [c] = c ^ 2 := by
  simp [sumSq]

theorem Jfun_nonneg (ka kb : ℤ) (u f g : List ℝ) (tmin tmax : ℕ) (a b : List ℝ) :
    0 ≤ Jfun ka kb u f g tmin tmax a b :=
  Finset.sum_nonneg fun _ _ => sq_nonneg _

theorem inv_sqrt2_sq : (1 / Real.sqrt 2) ^ 2 = 1 / 2 := by
  rw [div_pow, one_pow, Real.sq_sqrt (by norm_num : (0:ℝ) ≤ 2)]

/-- The value of the estimation objective for the degenerate na = nb = 1,
ka = kb = 0 case with identity warp and g = f: J([a0],[b0]) =
(a0 − b0)² · Σ_t f[t]² over the window [0, tmax]. -/
theorem Jfun_id (f : List ℝ) (tmax : ℕ) (h : tmax < f.length) (a0 b0 : ℝ) :
    Jfun 0 0 (idRamp f.length) f f 0 tmax [a0] [b0]
      = (a0 - b0) ^ 2 * ∑ t ∈ Finset.Icc 0 tmax, f.getD t 0 ^ 2 := by
  unfold Jfun
  rw [Finset.mul_sum]
  apply Finset.sum_congr rfl
  intro t ht
  have htf : t < f.length := lt_of_le_of_lt (Finset.mem_Icc.mp ht).2 h
  rw [convolve_single_getD a0 f t htf]
  rw [resample_idRamp_getD f.length _ t htf (by rw [convolve_length]; exact htf)]
  rw [convolve_single_getD b0 f t htf]
  ring

/-- Any pair of equal scalar filters of unit joint norm satisfies the
estimation contract of the identity-warp scenario on fScn: its objective is
zero, the global minimum. -/
theorem isInverseAB_scn (c : ℝ) (hc : sumSq [c] + sumSq [c] = 1) :
    IsInverseAB 1 0 1 0 (idRamp 5) fScn fScn 0 4 0 [c] [c] := by
  refine ⟨rfl, rfl, ?_, ?_⟩
  · rw [l2norm, Real.sqrt_eq_one, sumSq_append]
    exact hc
  · intro a' b' ha' hb' hn'
    have hlen : (4 : ℕ) < fScn.length := by norm_num [fScn]
    have hJ : Jstab 0 0 (idRamp 5) fScn fScn 0 4 0 [c] [c] = 0 := by
      unfold Jstab
      have hid : Jfun 0 0 (idRamp 5) fScn fScn 0 4 [c] [c]
          = Jfun 0 0 (idRamp fScn.length) fScn fScn 0 4 [c] [c] := rfl
      rw [hid, Jfun_id fScn 4 hlen c c]
      ring
    rw [hJ]
    unfold Jstab
    rw [zero_mul, add_zero]
    exact Jfun_nonneg 0 0 (idRamp 5) fScn fScn 0 4 a' b'

/-- C1: any output of the dual-filter estimator satisfies the unit-norm
constraint on the concatenation: the sum of squares of all coefficients of
a and b equals 1 (exactly, in the real-number model). -/
theorem C1_unit_norm (na : ℕ) (ka : ℤ) (nb : ℕ) (kb : ℤ) (u f g : List ℝ)
    (tmin tmax : ℕ) (sfac : ℝ) (a b : List ℝ)
    (h : IsInverseAB na ka nb kb u f g tmin tmax sfac a b) :
    sumSq a + sumSq b = 1 := by
  have h3 := h.2.2.1
  rw [l2norm, Real.sqrt_eq_one, sumSq_append] at h3
  exact h3

/-- Witness for C1: the pair ([1/√2], [1/√2]) satisfies the estimation
contract in the concrete identity-warp scenario and its coefficient squares
sum to 1. -/
theorem C1_unit_norm_w :
    IsInverseAB 1 0 1 0 (idRamp 5) fScn fScn 0 4 0
      [1 / Real.sqrt 2] [1 / Real.sqrt 2] ∧
    sumSq [1 / Real.sqrt 2] + sumSq [1 / Real.sqrt 2] = 1 := by
  have hc : sumSq [1 / Real.sqrt 2] + sumSq [1 / Real.sqrt 2] = 1 := by
    rw [sumSq_single, inv_sqrt2_sq]
    norm_num
  have h := isInverseAB_scn (1 / Real.sqrt 2) hc
  exact ⟨h, C1_unit_norm 1 0 1 0 (idRamp 5) fScn fScn 0 4 0 _ _ h⟩

/-- The window energy of the concrete scenario signal: Σ_t fScn[t]² = 2 over
the window [0, 4]. -/
theorem sum_sq_fScn : ∑ t ∈ Finset.Icc 0 4, fScn.getD t 0 ^ 2 = 2 := by
  have h45 : Finset.Icc (0 : ℕ) 4 = Finset.range 5 := by decide
  rw [h45]
  rw [Finset.sum_range_succ, Finset.sum_range_succ, Finset.sum_range_succ,
    Finset.sum_range_succ, Finset.sum_range_succ, Finset.sum_range_zero]
  norm_num [fScn]

/-- C2 counterexample: in the concrete scenario (identity warp, f = g =
[0,1,0,-1,0], na = nb = 1, ka = kb = 0, window [0,4], stabilization 0) the
pair ([-1/√2], [-1/√2]) also satisfies the estimation contract, and
-1/√2 ≠ 1/√2; so the contract does not force the returned filters to be
[1/√2]. -/
theorem C2_cex_sign :
    IsInverseAB 1 0 1 0 (idRamp 5) fScn fScn 0 4 0
      [-(1 / Real.sqrt 2)] [-(1 / Real.sqrt 2)] ∧
    -(1 / Real.sqrt 2) ≠ 1 / Real.sqrt 2 := by
  constructor
  · apply isInverseAB_scn
    rw [sumSq_single, neg_sq, inv_sqrt2_sq]
    norm_num
  · have h1 : 0 < 1 / Real.sqrt 2 := by positivity
    intro hcon
    linarith [hcon]

/-- C2 amended: with identity warp, g = f, na = nb = 1, ka = kb = 0,
stabilization 0, a window inside the signal and nonzero signal energy on the
window, every pair satisfying the estimation contract has equal scalar
filters a = b; in the concrete scenario (f = [0,1,0,-1,0], window [0,4]) the
filters are moreover a = b = ±1/√2 — determined only up to the global sign
ambiguity left by the unit-norm constraint. -/
theorem C2_amended :
    (∀ (f : List ℝ) (tmax : ℕ) (a0 b0 : ℝ), tmax < f.length →
      0 < ∑ t ∈ Finset.Icc 0 tmax, f.getD t 0 ^ 2 →
      IsInverseAB 1 0 1 0 (idRamp f.length) f f 0 tmax 0 [a0] [b0] → a0 = b0) ∧
    (∀ a0 b0 : ℝ, IsInverseAB 1 0 1 0 (idRamp 5) fScn fScn 0 4 0 [a0] [b0] →
      a0 = b0 ∧ (a0 = 1 / Real.sqrt 2 ∨ a0 = -(1 / Real.sqrt 2))) := by
  have hcpos : sumSq [1 / Real.sqrt 2] + sumSq [1 / Real.sqrt 2] = 1 := by
    rw [sumSq_single, inv_sqrt2_sq]
    norm_num
  have hnormc : l2norm ([1 / Real.sqrt 2] ++ [1 / Real.sqrt 2]) = 1 := by
    rw [l2norm, Real.sqrt_eq_one, sumSq_append]
    exact hcpos
  have hgen : ∀ (f : List ℝ) (tmax : ℕ) (a0 b0 : ℝ), tmax < f.length →
      0 < ∑ t ∈ Finset.Icc 0 tmax, f.getD t 0 ^ 2 →
      IsInverseAB 1 0 1 0 (idRamp f.length) f f 0 tmax 0 [a0] [b0] → a0 = b0 := by
    intro f tmax a0 b0 hlen hS h
    have hmin := h.2.2.2 [1 / Real.sqrt 2] [1 / Real.sqrt 2] rfl rfl hnormc
    unfold Jstab at hmin
    rw [Jfun_id f tmax hlen a0 b0, Jfun_id f tmax hlen _ _] at hmin
    have hzero : (1 / Real.sqrt 2 - 1 / Real.sqrt 2) ^ 2 = 0 := by ring_nf
    rw [hzero, zero_mul] at hmin
    have hge : 0 ≤ (a0 - b0) ^ 2 * ∑ t ∈ Finset.Icc 0 tmax, f.getD t 0 ^ 2 :=
      mul_nonneg (sq_nonneg _) (le_of_lt hS)
    have heq : (a0 - b0) ^ 2 * ∑ t ∈ Finset.Icc 0 tmax, f.getD t 0 ^ 2 = 0 := by
      linarith
    rcases mul_eq_zero.mp heq with hc | hc
    · have hd := sq_eq_zero_iff.mp hc
      linarith
    · linarith
  refine ⟨hgen, ?_⟩
  intro a0 b0 h
  have hS : (0 : ℝ) < ∑ t ∈ Finset.Icc 0 4, fScn.getD t 0 ^ 2 := by
    rw [sum_sq_fScn]
    norm_num
  have hlen : (4 : ℕ) < fScn.length := by norm_num [fScn]
  have hab : a0 = b0 := hgen fScn 4 a0 b0 hlen hS h
  refine ⟨hab, ?_⟩
  have hn := h.2.2.1
  rw [l2norm, Real.sqrt_eq_one, sumSq_append, sumSq_single, sumSq_single] at hn
  rw [← hab] at hn
  have ha2 : a0 ^ 2 = 1 / 2 := by linarith
  have hfact : (a0 - 1 / Real.sqrt 2) * (a0 + 1 / Real.sqrt 2) = 0 := by
    have hexp : (a0 - 1 / Real.sqrt 2) * (a0 + 1 / Real.sqrt 2)
        = a0 ^ 2 - (1 / Real.sqrt 2) ^ 2 := by ring
    rw [hexp, ha2, inv_sqrt2_sq]
    ring
  rcases mul_eq_zero.mp hfact with hc | hc
  · exact Or.inl (by linarith)
  · exact Or.inr (by linarith)

/-- Witness for the amended C2: the pair ([1/√2], [1/√2]) satisfies the
estimation contract in the concrete scenario, and the amended conclusion
holds of it. -/
theorem C2_amended_w :
    IsInverseAB 1 0 1 0 (idRamp 5) fScn fScn 0 4 0
      [1 / Real.sqrt 2] [1 / Real.sqrt 2] ∧
    ((1 : ℝ) / Real.sqrt 2 = 1 / Real.sqrt 2 ∧
      ((1 : ℝ) / Real.sqrt 2 = 1 / Real.sqrt 2 ∨
        (1 : ℝ) / Real.sqrt 2 = -(1 / Real.sqrt 2))) := by
  have hc : sumSq [1 / Real.sqrt 2] + sumSq [1 / Real.sqrt 2] = 1 := by
    rw [sumSq_single, inv_sqrt2_sq]
    norm_num
  have h := isInverseAB_scn (1 / Real.sqrt 2) hc
  exact ⟨h, C2_amended.2 (1 / Real.sqrt 2) (1 / Real.sqrt 2) h⟩

theorem getZ_lin (c1 c2 : ℝ) (x y : List ℝ) (hxy : x.length = y.length) (j : ℤ) :
    getZ (lin c1 x c2 y) j = c1 * getZ x j + c2 * getZ y j := by
  unfold getZ
  by_cases h0 : 0 ≤ j
  · rw [if_pos h0, if_pos h0, if_pos h0]
    by_cases hj : j.toNat < x.length
    · have hlen : j.toNat < (lin c1 x c2 y).length := by
        unfold lin
        rw [List.length_zipWith]
        omega
      rw [List.getD_eq_getElem _ _ hlen, List.getD_eq_getElem _ _ hj,
        List.getD_eq_getElem _ _ (hxy ▸ hj)]
      unfold lin
      rw [List.getElem_zipWith]
    · have hx : x.length ≤ j.toNat := le_of_not_lt hj
      have hlinl : (lin c1 x c2 y).length ≤ j.toNat := by
        unfold lin
        rw [List.length_zipWith]
        omega
      rw [List.getD_eq_default _ _ hlinl, List.getD_eq_default _ _ hx,
        List.getD_eq_default _ _ (by omega : y.length ≤ j.toNat)]
      ring
  · rw [if_neg h0, if_neg h0, if_neg h0]
    ring

theorem convolve_getD (h : Filter) (x : List ℝ) (i : ℕ) (hi : i < x.length) :
    (convolve h x).getD i 0 = ∑ k ∈ Finset.range h.coeff.length,
      h.coeff.getD k 0 * getZ x ((i : ℤ) - (k : ℤ) + h.offset) := by
  have hlen : i < (convolve h x).length := by
    rw [convolve_length]
    exact hi
  rw [List.getD_eq_getElem _ _ hlen]
  unfold convolve
  simp only [List.getElem_map, List.getElem_range]

theorem lin_getD (c1 c2 : ℝ) (x y : List ℝ) (hxy : x.length = y.length) (i : ℕ)
    (hi : i < x.length) :
    (lin c1 x c2 y).getD i 0 = c1 * x.getD i 0 + c2 * y.getD i 0 := by
  have hlen : i < (lin c1 x c2 y).length := by
    unfold lin
    rw [List.length_zipWith]
    omega
  rw [List.getD_eq_getElem _ _ hlen, List.getD_eq_getElem _ _ hi,
    List.getD_eq_getElem _ _ (hxy ▸ hi)]
  unfold lin
  rw [List.getElem_zipWith]

/-- C7: the convolution operator is linear in its signal argument: for every
filter h, signals x and y of equal length and scalars c1, c2,
convolve(h, c1·x + c2·y) = c1·convolve(h, x) + c2·convolve(h, y), exactly in
the real-number model of float arithmetic. -/
theorem C7_convolve_linear (h : Filter) (x y : List ℝ) (c1 c2 : ℝ)
    (hxy : x.length = y.length) :
    convolve h (lin c1 x c2 y) = lin c1 (convolve h x) c2 (convolve h y) := by
  have hlinlen : (lin c1 x c2 y).length = x.length := by
    unfold lin
    rw [List.length_zipWith]
    omega
  apply List.ext_getElem
  · rw [convolve_length, hlinlen]
    unfold lin
    rw [List.length_zipWith, convolve_length, convolve_length]
    omega
  · intro i h1 h2
    have hi : i < x.length := by
      rw [convolve_length, hlinlen] at h1
      exact h1
    rw [← List.getD_eq_getElem (convolve h (lin c1 x c2 y)) 0 h1,
      ← List.getD_eq_getElem (lin c1 (convolve h x) c2 (convolve h y)) 0 h2]
    rw [convolve_getD h (lin c1 x c2 y) i (by rw [hlinlen]; exact hi)]
    rw [lin_getD c1 c2 (convolve h x) (convolve h y)
      (by rw [convolve_length, convolve_length, hxy]) i (by rw [convolve_length]; exact hi)]
    rw [convolve_getD h x i hi, convolve_getD h y i (hxy ▸ hi)]
    rw [Finset.mul_sum, Finset.mul_sum, ← Finset.sum_add_distrib]
    apply Finset.sum_congr rfl
    intro k _
    rw [getZ_lin c1 c2 x y hxy]
    ring

/-- Witness for C7: linearity at the concrete filter [1,2] (offset 0),
signals [1,0] and [0,1] of equal length, and scalars 2 and 3. -/
theorem C7_convolve_linear_w :
    ([(1 : ℝ), 0] : List ℝ).length = ([(0 : ℝ), 1] : List ℝ).length ∧
    convolve ⟨[1, 2], 0⟩ (lin 2 [(1 : ℝ), 0] 3 [(0 : ℝ), 1])
      = lin 2 (convolve ⟨[1, 2], 0⟩ [(1 : ℝ), 0]) 3 (convolve ⟨[1, 2], 0⟩ [(0 : ℝ), 1]) :=
  ⟨by simp, C7_convolve_linear ⟨[1, 2], 0⟩ [(1 : ℝ), 0] [(0 : ℝ), 1] 2 3 (by simp)⟩

end Idh
